import Mathlib

/-!
# Verification of the omtriage session-organization core

A shallow embedding of the session-organization engine of the `omtriage`
repository (`src/omtriage/models.py`, `src/omtriage/organizer.py`,
`src/omtriage/constants.py`), together with proofs and refutations of the
specification claims about it.

Modelling conventions:
* A naive Python `datetime` is modelled as `Time := Nat`, the number of
  seconds since an epoch midnight.  `dt.date()` is then `t / 86400`,
  `dt.hour` is `t % 86400 / 3600`, and `datetime` subtraction followed by
  `.total_seconds() / 3600` is exact rational arithmetic on the casts.
* A `pathlib.Path` is modelled by its parent directory, stem and suffix
  (`path.name = stem ++ suffix`); `path.stat().st_ctime` is the `ctime`
  field of the file record.
* Fallible constructors (`MediaGroup.__post_init__` raises `ValueError`)
  return `Except String`.
* Python's stable `sorted` is modelled by `List.insertionSort` (stable for
  a total preorder), and `itertools.groupby` by `runsBy` below.
* Python compares strings by code points; `pyLe` below implements that
  order directly so that it evaluates inside the kernel.
-/

namespace Omtriage

/-- Naive datetimes as seconds since an epoch midnight. -/
abbrev Time := Nat

/-- `constants.AFTERNOON_HOUR = 14`. -/
def AFTERNOON_HOUR : Nat := 14

/-- `constants.DEFAULT_SESSION_GAP = 3.0` (hours). -/
def DEFAULT_SESSION_GAP : ℚ := 3

/-- The calendar date of a naive datetime (`dt.date()`), as an epoch-day count. -/
def dateOf (t : Time) : Nat := t / 86400

/-- The hour of a naive datetime (`dt.hour`). -/
def hourOf (t : Time) : Nat := t % 86400 / 3600

/-- `(curr_time - prev_time).total_seconds() / 3600` as exact rational
arithmetic (organizer.py line 52). -/
def hoursDiff (prev curr : Time) : ℚ := ((curr : ℚ) - (prev : ℚ)) / 3600

/-- Python's code-point order on characters. -/
def lexLe : List Char → List Char → Bool
  | [], _ => true
  | _ :: _, [] => false
  | a :: as, b :: bs =>
      if a.toNat < b.toNat then true
      else if b.toNat < a.toNat then false
      else lexLe as bs

/-- Python string `<=` (code-point lexicographic order). -/
def pyLe (a b : String) : Bool := lexLe a.data b.data

/-- ASCII lower-casing of a character, as `str.lower()` acts on ASCII. -/
def lowerChar (c : Char) : Char :=
  if 65 ≤ c.toNat ∧ c.toNat ≤ 90 then Char.ofNat (c.toNat + 32) else c

/-- ASCII lower-casing of a string (`str.lower()`; media suffixes are ASCII). -/
def lowerStr (s : String) : String := ⟨s.data.map lowerChar⟩

/-- `min` of a list of naturals, `none` on the empty list (Python's `min`
raises there). -/
def minNat? : List Nat → Option Nat
  | [] => none
  | x :: xs => some (xs.foldl Nat.min x)

/-- `SessionType` (models.py): session types based on start time. -/
inductive SessionType
  | MORNING
  | AFTERNOON
deriving DecidableEq

/-- `SessionType.from_datetime`: afternoon iff `dt.hour >= AFTERNOON_HOUR`. -/
def SessionType.from_datetime (t : Time) : SessionType :=
  if AFTERNOON_HOUR ≤ hourOf t then .AFTERNOON else .MORNING

/-- `SessionType.__str__`: `"PM"` for afternoon, `"AM"` for morning. -/
def SessionType.str : SessionType → String
  | .AFTERNOON => "PM"
  | .MORNING => "AM"

/-- `MediaMetadata` (models.py): metadata extracted from a media file.  Its
`format` field is initialised to the constant `"orf"` by `__post_init__` and
is read nowhere in the pipeline (`MediaFile.format` reads the path suffix),
so it is not modelled. -/
structure MediaMetadata where
  capture_time : Option Time
deriving DecidableEq

/-- `MediaFile` (models.py): a media file, identified by its path (parent
directory, stem and suffix), filesystem creation time, byte size and
optional extracted metadata. -/
structure MediaFile where
  dir : String
  stem : String
  suffix : String
  ctime : Time
  size : Nat
  metadata : Option MediaMetadata
deriving DecidableEq

/-- `path.name`: stem plus suffix. -/
def MediaFile.name (f : MediaFile) : String := f.stem ++ f.suffix

/-- `MediaFile.format`: `self.path.suffix.lower().lstrip(".")` (a pathlib
suffix carries at most one leading dot). -/
def MediaFile.format (f : MediaFile) : String := (lowerStr f.suffix).drop 1

/-- `MediaFile.creation_date`: the filesystem creation time. -/
def MediaFile.creation_date (f : MediaFile) : Time := f.ctime

/-- `MediaFile.capture_time`: metadata capture time when the metadata is
present and carries one, otherwise the creation date.  (The Python guard
`if self.metadata and self.metadata.capture_time` tests object truthiness;
a `datetime` is always truthy.) -/
def MediaFile.capture_time (f : MediaFile) : Time :=
  match f.metadata with
  | some m =>
      match m.capture_time with
      | some t => t
      | none => f.creation_date
  | none => f.creation_date

/-- `constants.SUPPORTED_FORMATS["images"]`. -/
def imageFormats : List String := ["orf", "ori", "jpg", "jpeg"]

/-- `constants.SUPPORTED_FORMATS["videos"]`. -/
def videoFormats : List String := ["mov", "mp4"]

/-- `MediaFile.is_image`. -/
def MediaFile.is_image (f : MediaFile) : Bool := imageFormats.contains f.format

/-- `MediaFile.is_video`. -/
def MediaFile.is_video (f : MediaFile) : Bool := videoFormats.contains f.format

/-- `MediaFile.output_name`: append `".ORF"` when the (lower-cased) format is
the raw alias `"ori"`, otherwise the source name. -/
def MediaFile.output_name (f : MediaFile) : String :=
  if f.format = "ori" then f.name ++ ".ORF" else f.name

/-- `MediaGroup` (models.py): a group of related media files together with
the group capture time computed by `__post_init__`. -/
structure MediaGroup where
  files : List MediaFile
  capture_time : Time
deriving DecidableEq

/-- `MediaGroup.__init__` / `__post_init__`: the group capture time is the
minimum of the members' capture times; a group with no capture times raises
`ValueError` (every `MediaFile.capture_time` is a datetime, hence truthy, so
the source's truthiness filter keeps every member). -/
def mkMediaGroup (files : List MediaFile) : Except String MediaGroup :=
  match minNat? (files.map MediaFile.capture_time) with
  | some t => .ok ⟨files, t⟩
  | none => .error "No valid capture times found in group"

/-- `MediaGroup.get_by_format`: the first file of the given format, if any. -/
def MediaGroup.get_by_format (g : MediaGroup) (fmt : String) : Option MediaFile :=
  g.files.find? (fun f => f.format == fmt)

/-- `Session` (models.py): groups, a type, and a disambiguation number
(whose dataclass default is 1; every construction site below passes it
explicitly). -/
structure Session where
  groups : List MediaGroup
  type : SessionType
  number : Nat
deriving DecidableEq

/-- `Session.start_time`: minimum group capture time.  In the source this is
`min` of a nonempty list; sessions built by the segmenter always have
nonempty `groups`, so the `getD` default is never reached there. -/
def Session.start_time (s : Session) : Time :=
  (minNat? (s.groups.map MediaGroup.capture_time)).getD 0

/-- Proleptic-Gregorian civil date (year, month, day) from an epoch-day
count, with the epoch at 1970-01-01 (the standard days-to-civil algorithm,
used only to render `strftime("%Y-%m-%d")`). -/
def civilFromDays (days : Nat) : Nat × Nat × Nat :=
  let z := days + 719468
  let era := z / 146097
  let doe := z % 146097
  let yoe := (doe - doe / 1460 + doe / 36524 - doe / 146096) / 365
  let y := yoe + era * 400
  let doy := doe - (365 * yoe + yoe / 4 - yoe / 100)
  let mp := (5 * doy + 2) / 153
  let d := doy - (153 * mp + 2) / 5 + 1
  let m := if mp < 10 then mp + 3 else mp - 9
  (if m ≤ 2 then y + 1 else y, m, d)

/-- Zero-padded two-digit rendering. -/
def pad2 (n : Nat) : String := if n < 10 then "0" ++ toString n else toString n

/-- `start_time.strftime("%Y-%m-%d")`. -/
def dateStr (t : Time) : String :=
  let c := civilFromDays (dateOf t)
  toString c.1 ++ "-" ++ pad2 c.2.1 ++ "-" ++ pad2 c.2.2

/-- `Session.format_name` (without the optional `base_dir` argument, which
only prepends a directory): `{date}-{type}` with `-{number}` appended only
when `number > 1`. -/
def Session.format_name (s : Session) : String :=
  let base := dateStr s.start_time ++ "-" ++ s.type.str
  if 1 < s.number then base ++ "-" ++ toString s.number else base

/-- Consecutive runs of equal keys (`itertools.groupby` over a list whose
equal keys are adjacent, as after sorting). -/
def runsBy (key : MediaFile → String) : List MediaFile → List (List MediaFile)
  | [] => []
  | x :: xs =>
      match runsBy key xs with
      | (y :: ys) :: rest =>
          if key x = key y then (x :: y :: ys) :: rest
          else [x] :: (y :: ys) :: rest
      | _ => [[x]]

/-- The stem order used by `group_files`'s `sorted(files, key=lambda f:
f.path.stem)`. -/
def stemLe (a b : MediaFile) : Prop := pyLe a.stem b.stem = true

instance : DecidableRel stemLe := fun a b =>
  inferInstanceAs (Decidable (pyLe a.stem b.stem = true))

/-- The group-construction loop of `group_files`: one `MediaGroup` is built
and appended per run; a `ValueError` raised by construction propagates, as
it is uncaught in the source. -/
def buildGroups : List (List MediaFile) → Except String (List MediaGroup)
  | [] => .ok []
  | r :: rest =>
      match mkMediaGroup r with
      | .ok g =>
          match buildGroups rest with
          | .ok gs => .ok (g :: gs)
          | .error e => .error e
      | .error e => .error e

/-- `organizer.group_files`: sort by stem, collect consecutive equal-stem
runs into `MediaGroup`s. -/
def group_files (files : List MediaFile) : Except String (List MediaGroup) :=
  let sorted_files := files.insertionSort stemLe
  buildGroups (runsBy (fun f => f.stem) sorted_files)

/-- The capture-time order used by `organize_sessions`'s
`sorted(groups, key=lambda g: g.capture_time)`. -/
def timeLe (a b : MediaGroup) : Prop := a.capture_time ≤ b.capture_time

instance : DecidableRel timeLe := fun a b =>
  inferInstanceAs (Decidable (a.capture_time ≤ b.capture_time))

/-- The loop body of `organize_sessions` (organizer.py lines 44-72).  The
state is the emitted-sessions accumulator (made implicit by emitting in
order), the current session's groups (`firstG` plus the later members in
reverse, so `current_groups[-1]` is `restRev.headD firstG`), the current
session type and the current session date. -/
def orgLoop (gap : ℚ) (ctype : SessionType) (cdate : Nat)
    (firstG : MediaGroup) (restRev : List MediaGroup) :
    List MediaGroup → List Session
  | [] => [⟨firstG :: restRev.reverse, ctype, 1⟩]
  | g :: gs =>
      let prev_time := (restRev.headD firstG).capture_time
      let time_diff := hoursDiff prev_time g.capture_time
      let curr_type := SessionType.from_datetime g.capture_time
      let curr_date := dateOf g.capture_time
      if curr_date ≠ cdate ∨ time_diff > gap then
        ⟨firstG :: restRev.reverse, ctype, 1⟩ ::
          orgLoop gap curr_type curr_date g [] gs
      else
        orgLoop gap ctype cdate firstG (g :: restRev) gs

/-- `organize_sessions` before the numbering pass: sort the groups by
capture time, seed the first session with the first group, and run the
loop.  An empty input yields an empty session list. -/
def organizeSessionsRaw (groups : List MediaGroup) (gap : ℚ) : List Session :=
  match groups.insertionSort timeLe with
  | [] => []
  | g0 :: rest =>
      orgLoop gap (SessionType.from_datetime g0.capture_time)
        (dateOf g0.capture_time) g0 [] rest

/-- `session.start_time.date().isoformat()`, the key used by
`_number_sessions`; ISO date strings are in bijection with epoch-day
counts, so the day count serves as the key. -/
def dateKey (s : Session) : Nat := dateOf s.start_time

/-- Python's `enumerate` with a given start index. -/
def enumFrom {α : Type} (n : Nat) : List α → List (Nat × α)
  | [] => []
  | x :: xs => (n, x) :: enumFrom (n + 1) xs

/-- One `by_date.setdefault(date, []).append(session)` step of
`_number_sessions`, on buckets of session *indices* (list positions stand
in for Python's object identities); Python dicts preserve insertion
order. -/
def addToBuckets (buckets : List (Nat × List Nat)) (d : Nat) (i : Nat) :
    List (Nat × List Nat) :=
  match buckets with
  | [] => [(d, [i])]
  | (d', idxs) :: rest =>
      if d' = d then (d', idxs ++ [i]) :: rest
      else (d', idxs) :: addToBuckets rest d i

/-- The `by_date` dictionary of `_number_sessions`: insertion-ordered
buckets of session indices keyed by start date. -/
def byDate (ss : List Session) : List (Nat × List Nat) :=
  (enumFrom 0 ss).foldl (fun acc p => addToBuckets acc (dateKey p.2) p.1) []

/-- The numbering pass of `_number_sessions`: for every bucket with more
than one session, `enumerate(date_sessions, 1)` assigns each session (here:
each session index) its 1-based position in the bucket. -/
def numberAssignments (buckets : List (Nat × List Nat)) : List (Nat × Nat) :=
  buckets.foldr
    (fun p acc =>
      if 1 < p.2.length then (enumFrom 1 p.2).map (fun q => (q.2, q.1)) ++ acc
      else acc)
    []

/-- Look up the number assigned to session index `i`, if any. -/
def lookupNum (assignments : List (Nat × Nat)) (i : Nat) : Option Nat :=
  (assignments.find? (fun p => p.1 == i)).map (·.2)

/-- `organizer._number_sessions`: apply the assigned numbers (Python
mutates `session.number` in place; here the list is rebuilt with the same
groups and types). -/
def numberSessions (ss : List Session) : List Session :=
  (enumFrom 0 ss).map (fun p =>
    match lookupNum (numberAssignments (byDate ss)) p.1 with
    | some n => ⟨p.2.groups, p.2.type, n⟩
    | none => p.2)

/-- `organizer.organize_sessions`: segment, then number same-day sessions. -/
def organize_sessions (groups : List MediaGroup) (gap : ℚ) : List Session :=
  numberSessions (organizeSessionsRaw groups gap)

/-- The bucket stored under key `d` (empty when the key is absent); an
analysis helper for the `by_date` dictionary. -/
def bget (b : List (Nat × List Nat)) (d : Nat) : List Nat :=
  ((b.find? (fun p => p.1 == d)).map (·.2)).getD []

/-- The key list of a bucket association list. -/
def bkeys (b : List (Nat × List Nat)) : List Nat := b.map (·.1)

/-- A default session used only as the out-of-range value of `List.getD`. -/
def defaultSession : Session := ⟨[], SessionType.MORNING, 0⟩

/-- The destination subdirectories of `create_session_structure`:
`videos/{session}`, `images/{session}` and
`images/jpeg_duplicates/{session}`. -/
inductive Target
  | images
  | videos
  | jpegDuplicates
deriving DecidableEq

/-- The index of the group member that is the object
`group.get_by_format("jpg") or group.get_by_format("jpeg")` (organizer.py
line 147); `find?`/`findIdx?` both take the first match, so the Python
object-identity test `file is jpg_file` holds exactly at this index. -/
def jpgFileIdx (g : MediaGroup) : Option Nat :=
  match g.files.findIdx? (fun f => f.format == "jpg") with
  | some i => some i
  | none => g.files.findIdx? (fun f => f.format == "jpeg")

/-- The routing decision of `create_session_structure` (organizer.py lines
149-158) for the `i`-th file of a group: videos to the video directory; the
designated JPEG, when an `"orf"`-format file is present in the group, to
`jpeg_duplicates`; every other file to the image directory. -/
def routeIdx (g : MediaGroup) (i : Nat) : Option Target :=
  (g.files.get? i).map (fun f =>
    if f.is_video then Target.videos
    else if jpgFileIdx g = some i ∧ (g.get_by_format "orf").isSome then
      Target.jpegDuplicates
    else Target.images)

/-- The filename under which `create_session_structure` places a file:
`target = target_dir / source.name` (organizer.py line 161). -/
def placedName (f : MediaFile) : String := f.name

/-- A destination directory state: an association of destination paths
(target directory and filename) to file identifiers. -/
abbrev FsState := List ((Target × String) × Nat)

/-- Destination lookup. -/
def fsLookup (fs : FsState) (k : Target × String) : Option Nat :=
  (fs.find? (fun e => decide (e.1 = k))).map (·.2)

/-- The per-file placement step of `create_session_structure` (organizer.py
lines 163-171): `if target.exists(): target.unlink()`, then hardlink or
copy the source to the target.  A real directory holds at most one entry
per path, so removing every entry at the target models the `unlink`. -/
def placeFile (fs : FsState) (tgt : Target × String) (fid : Nat) : FsState :=
  (fs.filter (fun e => decide (e.1 ≠ tgt))) ++ [(tgt, fid)]

/-- Modelled from claim C8's wording, for comparison with `placeFile`: when
the destination exists and the overwrite flag is clear, skip the file;
otherwise remove and replace. -/
def placeFileClaim (overwrite : Bool) (fs : FsState) (tgt : Target × String)
    (fid : Nat) : FsState :=
  if (fsLookup fs tgt).isSome ∧ overwrite = false then fs
  else (fs.filter (fun e => decide (e.1 ≠ tgt))) ++ [(tgt, fid)]

/-- Modelled from claim C4's wording, for comparison with `routeIdx`: video
files to the video directory; a JPEG file whose group also contains a
raw-format file (the raw primary `orf` or its alias `ori`) to
`jpeg_duplicates`; every other image to the image directory. -/
def claimRoute (g : MediaGroup) (f : MediaFile) : Target :=
  if f.is_video then Target.videos
  else if (f.format = "jpg" ∨ f.format = "jpeg") ∧
      (∃ r ∈ g.files, r.format = "orf" ∨ r.format = "ori") then
    Target.jpegDuplicates
  else Target.images

/-- Modelled from claim C1's wording: a new session starts at a group iff
its calendar date differs from the previous group's (equivalently, by the
master lemma below, from the current session's date) or the elapsed hours
since the immediately previous group strictly exceed the gap. -/
def specSplit (gap : ℚ) (prev curr : MediaGroup) : Prop :=
  dateOf curr.capture_time ≠ dateOf prev.capture_time ∨
    hoursDiff prev.capture_time curr.capture_time > gap

instance : Decidable (specSplit gap prev curr) :=
  inferInstanceAs (Decidable (_ ∨ _))

/-- The partition of a sorted group list dictated by claim C1: chunk the
list at exactly the `specSplit` boundaries. -/
def specChunks (gap : ℚ) (firstG : MediaGroup) (restRev : List MediaGroup) :
    List MediaGroup → List (List MediaGroup)
  | [] => [firstG :: restRev.reverse]
  | g :: gs =>
      if specSplit gap (restRev.headD firstG) g then
        (firstG :: restRev.reverse) :: specChunks gap g [] gs
      else specChunks gap firstG (g :: restRev) gs

/-- Claim C1's segmentation of a whole (sorted) group list. -/
def specSegments (gap : ℚ) : List MediaGroup → List (List MediaGroup)
  | [] => []
  | g :: gs => specChunks gap g [] gs

/-- A concrete pipeline file: directory, stem, suffix, a timestamp used both
as creation time and extracted capture time, zero size. -/
def mkFile (dir stem suffix : String) (t : Time) : MediaFile :=
  ⟨dir, stem, suffix, t, 0, some ⟨some t⟩⟩

/-- A concrete single-file group with the given capture time. -/
def mkG (t : Time) : MediaGroup := ⟨[mkFile "d" "g" ".ORF" t], t⟩

/-- The stem of the first file of a run (runs are never empty). -/
def keyOfRun : List MediaFile → String
  | [] => ""
  | f :: _ => f.stem

/-- Strict code-point order on strings. -/
def pyLt (a b : String) : Prop := pyLe a b = true ∧ a ≠ b

/-- C9 example: a raw file with stem `X`. -/
def fileC9raw : MediaFile := mkFile "a" "X" ".ORF" 100

/-- C9 example: the JPEG paired with `fileC9raw`. -/
def fileC9jpgA : MediaFile := mkFile "a" "X" ".JPG" 100

/-- C9 example: a second JPEG, from another directory, with the same stem. -/
def fileC9jpgB : MediaFile := mkFile "b" "X" ".JPG" 100

/-- C4/C6 example: a raw-alias file `X.ORI`. -/
def fileORI : MediaFile := mkFile "d" "X" ".ORI" 100

/-- C4 example: the JPEG sharing `fileORI`'s stem. -/
def fileJPG : MediaFile := mkFile "d" "X" ".JPG" 100

/-- C4/C6 example: the capture group holding `X.ORI` and `X.JPG`. -/
def groupC4 : MediaGroup := ⟨[fileORI, fileJPG], 100⟩

/-- Witness example: a raw file with stem `A`. -/
def fileA1 : MediaFile := mkFile "d" "A" ".ORF" 50

/-- Witness example: a JPEG with stem `A`. -/
def fileA2 : MediaFile := mkFile "d" "A" ".JPG" 60

/-! ## Order facts for the code-point string order -/

theorem charEq_of_toNat_eq {a b : Char} (h : a.toNat = b.toNat) : a = b :=
  Char.eq_of_val_eq (UInt32.eq_of_val_eq (Fin.eq_of_val_eq h))

theorem lexLe_total : ∀ as bs, lexLe as bs = true ∨ lexLe bs as = true := by
  intro as
  induction as with
  | nil => intro bs; left; rfl
  | cons a as ih =>
      intro bs
      cases bs with
      | nil => right; rfl
      | cons b bs =>
          rcases Nat.lt_trichotomy a.toNat b.toNat with h | h | h
          · left; simp [lexLe, h]
          · have h1 : ¬ a.toNat < b.toNat := by omega
            have h2 : ¬ b.toNat < a.toNat := by omega
            rcases ih bs with hl | hr
            · left; simp [lexLe, h1, h2, hl]
            · right; simp [lexLe, h1, h2, hr]
          · right; simp [lexLe, h]

theorem lexLe_trans :
    ∀ as bs cs, lexLe as bs = true → lexLe bs cs = true → lexLe as cs = true := by
  intro as
  induction as with
  | nil => intro bs cs _ _; rfl
  | cons a as ih =>
      intro bs cs hab hbc
      cases bs with
      | nil => simp [lexLe] at hab
      | cons b bs =>
          cases cs with
          | nil => simp [lexLe] at hbc
          | cons c cs =>
              by_cases h1 : a.toNat < b.toNat
              · by_cases h2 : b.toNat < c.toNat
                · have : a.toNat < c.toNat := by omega
                  simp [lexLe, this]
                · by_cases h3 : c.toNat < b.toNat
                  · simp [lexLe, h2, h3] at hbc
                  · have : a.toNat < c.toNat := by omega
                    simp [lexLe, this]
              · by_cases h4 : b.toNat < a.toNat
                · simp [lexLe, h1, h4] at hab
                · by_cases h2 : b.toNat < c.toNat
                  · have : a.toNat < c.toNat := by omega
                    simp [lexLe, this]
                  · by_cases h3 : c.toNat < b.toNat
                    · simp [lexLe, h2, h3] at hbc
                    · have h5 : ¬ a.toNat < c.toNat := by omega
                      have h6 : ¬ c.toNat < a.toNat := by omega
                      simp only [lexLe, if_neg h1, if_neg h4] at hab
                      simp only [lexLe, if_neg h2, if_neg h3] at hbc
                      simp only [lexLe, if_neg h5, if_neg h6]
                      exact ih bs cs hab hbc

theorem lexLe_antisymm :
    ∀ as bs, lexLe as bs = true → lexLe bs as = true → as = bs := by
  intro as
  induction as with
  | nil =>
      intro bs _ hba
      cases bs with
      | nil => rfl
      | cons b bs => simp [lexLe] at hba
  | cons a as ih =>
      intro bs hab hba
      cases bs with
      | nil => simp [lexLe] at hab
      | cons b bs =>
          by_cases h1 : a.toNat < b.toNat
          · have : ¬ b.toNat < a.toNat := by omega
            simp [lexLe, h1, this] at hba
          · by_cases h2 : b.toNat < a.toNat
            · simp [lexLe, h1, h2] at hab
            · have hc : a = b := charEq_of_toNat_eq (by omega)
              simp only [lexLe, if_neg h1, if_neg h2] at hab hba
              rw [hc, ih bs hab hba]

theorem pyLe_antisymm {a b : String} (hab : pyLe a b = true) (hba : pyLe b a = true) :
    a = b := by
  cases a with
  | mk da =>
      cases b with
      | mk db => exact congrArg String.mk (lexLe_antisymm da db hab hba)

theorem stemLe_total : ∀ a b : MediaFile, stemLe a b ∨ stemLe b a :=
  fun a b => lexLe_total a.stem.data b.stem.data

theorem stemLe_trans : ∀ a b c : MediaFile, stemLe a b → stemLe b c → stemLe a c :=
  fun _ _ _ hab hbc => lexLe_trans _ _ _ hab hbc

theorem pyLt_trans {a b c : String} (hab : pyLt a b) (hbc : pyLt b c) : pyLt a c :=
  ⟨lexLe_trans _ _ _ hab.1 hbc.1,
    fun hac => hbc.2 (pyLe_antisymm hbc.1 (hac ▸ hab.1))⟩

/-! ## Runs of equal stems -/

theorem runsBy_ne_nil (key : MediaFile → String) :
    ∀ l r, r ∈ runsBy key l → r ≠ [] := by
  intro l
  induction l with
  | nil => intro r hr; simp [runsBy] at hr
  | cons x xs ih =>
      intro r hr
      rw [runsBy] at hr
      cases hrb : runsBy key xs with
      | nil => rw [hrb] at hr; simp at hr; simp [hr]
      | cons r0 rs =>
          cases r0 with
          | nil => exact absurd (hrb ▸ List.mem_cons_self [] rs) (fun h => ih [] h rfl)
          | cons y ys =>
              rw [hrb] at hr
              by_cases hk : key x = key y
              · simp [hk] at hr
                rcases hr with h | h
                · simp [h]
                · exact ih r (hrb ▸ List.mem_cons_of_mem _ h)
              · simp [hk] at hr
                rcases hr with h | h
                · simp [h]
                · exact ih r (hrb ▸ List.mem_cons.mpr h)

theorem runsBy_flatten (key : MediaFile → String) :
    ∀ l, (runsBy key l).flatten = l := by
  intro l
  induction l with
  | nil => rfl
  | cons x xs ih =>
      rw [runsBy]
      cases hrb : runsBy key xs with
      | nil =>
          have : xs = [] := by rw [← ih, hrb]; rfl
          simp [this]
      | cons r0 rs =>
          cases r0 with
          | nil => exact absurd (hrb ▸ List.mem_cons_self [] rs) (fun h => runsBy_ne_nil key xs [] h rfl)
          | cons y ys =>
              rw [hrb] at ih
              by_cases hk : key x = key y
              · simp only [hk, if_pos]
                simp only [List.flatten_cons] at ih ⊢
                simp [ih]
              · simp only [hk, if_neg, if_false]
                simp only [List.flatten_cons] at ih ⊢
                simp [ih]

theorem runsBy_key_eq (key : MediaFile → String) :
    ∀ l r, r ∈ runsBy key l → ∀ a ∈ r, ∀ b ∈ r, key a = key b := by
  intro l
  induction l with
  | nil => intro r hr; simp [runsBy] at hr
  | cons x xs ih =>
      intro r hr a ha b hb
      rw [runsBy] at hr
      cases hrb : runsBy key xs with
      | nil =>
          rw [hrb] at hr; simp at hr
          subst hr; simp at ha hb; rw [ha, hb]
      | cons r0 rs =>
          cases r0 with
          | nil => exact absurd (hrb ▸ List.mem_cons_self [] rs) (fun h => runsBy_ne_nil key xs [] h rfl)
          | cons y ys =>
              rw [hrb] at hr
              have hyy : ∀ c ∈ y :: ys, key c = key y := by
                intro c hc
                exact ih (y :: ys) (hrb ▸ List.mem_cons_self _ _) c hc y (by simp)
              by_cases hk : key x = key y
              · simp [hk] at hr
                rcases hr with h | h
                · subst h
                  have hx : ∀ c ∈ x :: y :: ys, key c = key y := by
                    intro c hc
                    rcases List.mem_cons.mp hc with h' | h'
                    · rw [h', hk]
                    · exact hyy c h'
                  rw [hx a ha, hx b hb]
                · exact ih r (hrb ▸ List.mem_cons_of_mem _ h) a ha b hb
              · simp [hk] at hr
                rcases hr with h | h
                · subst h
                  simp at ha hb; rw [ha, hb]
                · exact ih r (hrb ▸ List.mem_cons.mpr h) a ha b hb

theorem runsBy_cons_head (key : MediaFile → String) (x : MediaFile) (xs : List MediaFile) :
    ∃ t rest, runsBy key (x :: xs) = (x :: t) :: rest := by
  rw [runsBy]
  cases hrb : runsBy key xs with
  | nil => exact ⟨[], [], rfl⟩
  | cons r0 rs =>
      cases r0 with
      | nil => exact absurd (hrb ▸ List.mem_cons_self [] rs) (fun h => runsBy_ne_nil key xs [] h rfl)
      | cons y ys =>
          by_cases hk : key x = key y
          · exact ⟨y :: ys, rs, by simp [hk]⟩
          · exact ⟨[], (y :: ys) :: rs, by simp [hk]⟩

theorem runsBy_sorted_chain :
    ∀ l, List.Sorted stemLe l →
      List.Chain' (fun r s => pyLt (keyOfRun r) (keyOfRun s))
        (runsBy (fun f => f.stem) l) := by
  intro l
  induction l with
  | nil => simp [runsBy]
  | cons x xs ih =>
      intro hs
      have hs' : List.Sorted stemLe xs := hs.of_cons
      have hrel : ∀ y ∈ xs, stemLe x y := fun y hy => List.rel_of_sorted_cons hs y hy
      rw [runsBy]
      cases hrb : runsBy (fun f => f.stem) xs with
      | nil => simp
      | cons r0 rs =>
          cases r0 with
          | nil =>
              exact absurd (hrb ▸ List.mem_cons_self [] rs)
                (fun h => runsBy_ne_nil _ xs [] h rfl)
          | cons y ys =>
              have hchain := ih hs'
              rw [hrb] at hchain
              by_cases hk : x.stem = y.stem
              · simp only [hk, if_pos]
                have : keyOfRun (x :: y :: ys) = keyOfRun (y :: ys) := by
                  simp [keyOfRun, hk]
                cases rs with
                | nil => simp
                | cons r1 rs' =>
                    rcases List.chain'_cons.mp hchain with ⟨h1, h2⟩
                    exact List.chain'_cons.mpr ⟨this ▸ h1, h2⟩
              · simp only [hk, if_neg, if_false]
                have hxs : xs ≠ [] := by
                  intro h; rw [h] at hrb; simp [runsBy] at hrb
                obtain ⟨x', xs', hx'⟩ := List.exists_cons_of_ne_nil hxs
                obtain ⟨t, rest, hrun⟩ := runsBy_cons_head (fun f => f.stem) x' xs'
                rw [hx'] at hrb
                rw [hrun] at hrb
                have hy : y = x' := by
                  have := congrArg List.head? hrb
                  simp at this
                  exact this.1.symm
                have hle : pyLe x.stem y.stem = true := by
                  have := hrel x' (hx' ▸ List.mem_cons_self _ _)
                  rw [hy]; exact this
                exact List.chain'_cons.mpr ⟨⟨hle, hk⟩, hchain⟩

theorem runs_pairwise_ne (l : List MediaFile) (hs : List.Sorted stemLe l) :
    List.Pairwise (fun r s => keyOfRun r ≠ keyOfRun s)
      (runsBy (fun f => f.stem) l) := by
  haveI : IsTrans (List MediaFile) (fun r s => pyLt (keyOfRun r) (keyOfRun s)) :=
    ⟨fun _ _ _ hab hbc => pyLt_trans hab hbc⟩
  have h := List.chain'_iff_pairwise.mp (runsBy_sorted_chain l hs)
  exact h.imp (fun hab => hab.2)

theorem runsBy_member_key (l : List MediaFile)
    (r : List MediaFile) (hr : r ∈ runsBy (fun f => f.stem) l)
    (a : MediaFile) (ha : a ∈ r) :
    a.stem = keyOfRun r := by
  cases r with
  | nil => simp at ha
  | cons f fs =>
      have := runsBy_key_eq (fun f => f.stem) l _ hr a ha f (by simp)
      simpa [keyOfRun] using this

/-! ## Group construction -/

theorem mkMediaGroup_ok_of_ne_nil (files : List MediaFile) (h : files ≠ []) :
    ∃ t, mkMediaGroup files = .ok ⟨files, t⟩ := by
  cases files with
  | nil => exact absurd rfl h
  | cons f fs => exact ⟨_, rfl⟩

theorem buildGroups_ok (runs : List (List MediaFile)) (h : ∀ r ∈ runs, r ≠ []) :
    ∃ gs, buildGroups runs = .ok gs ∧ gs.map MediaGroup.files = runs := by
  induction runs with
  | nil => exact ⟨[], rfl, rfl⟩
  | cons r rest ih =>
      obtain ⟨t, ht⟩ := mkMediaGroup_ok_of_ne_nil r (h r (by simp))
      obtain ⟨gs, hgs, hfiles⟩ := ih (fun r' hr' => h r' (List.mem_cons_of_mem _ hr'))
      exact ⟨⟨r, t⟩ :: gs, by rw [buildGroups, ht, hgs], by simp [hfiles]⟩

theorem group_files_ok (files : List MediaFile) :
    ∃ gs, group_files files = .ok gs ∧
      gs.map MediaGroup.files =
        runsBy (fun f => f.stem) (files.insertionSort stemLe) := by
  obtain ⟨gs, h1, h2⟩ := buildGroups_ok _
    (fun r hr => runsBy_ne_nil _ _ r hr)
  exact ⟨gs, h1, h2⟩

theorem group_files_files_eq (files : List MediaFile) (gs : List MediaGroup)
    (h : group_files files = .ok gs) :
    gs.map MediaGroup.files =
      runsBy (fun f => f.stem) (files.insertionSort stemLe) := by
  obtain ⟨gs', h1, h2⟩ := group_files_ok files
  rw [h] at h1
  cases h1
  exact h2

theorem group_files_perm (files : List MediaFile) (gs : List MediaGroup)
    (h : group_files files = .ok gs) :
    ((gs.map MediaGroup.files).flatten).Perm files := by
  rw [group_files_files_eq files gs h, runsBy_flatten]
  exact List.perm_insertionSort stemLe files

theorem group_files_stems (files : List MediaFile) (gs : List MediaGroup)
    (h : group_files files = .ok gs) :
    ∀ g ∈ gs, ∀ f ∈ g.files, ∀ f' ∈ g.files, f.stem = f'.stem := by
  intro g hg f hf f' hf'
  have hmem : g.files ∈ runsBy (fun f => f.stem) (files.insertionSort stemLe) := by
    rw [← group_files_files_eq files gs h]
    exact List.mem_map_of_mem MediaGroup.files hg
  exact runsBy_key_eq _ _ _ hmem f hf f' hf'

theorem group_files_distinct_stems (files : List MediaFile) (gs : List MediaGroup)
    (h : group_files files = .ok gs) :
    List.Pairwise (fun g g' => ∀ f ∈ g.files, ∀ f' ∈ g'.files, f.stem ≠ f'.stem) gs := by
  haveI : IsTotal MediaFile stemLe := ⟨stemLe_total⟩
  haveI : IsTrans MediaFile stemLe := ⟨stemLe_trans⟩
  have hruns := runs_pairwise_ne (files.insertionSort stemLe)
    (List.sorted_insertionSort stemLe files)
  have hruns' := List.Pairwise.and_mem.mp hruns
  rw [← group_files_files_eq files gs h] at hruns'
  have hmap := (List.pairwise_map).mp hruns'
  refine hmap.imp ?_
  rintro g g' ⟨hg, hg', hne⟩ f hf f' hf' heq
  apply hne
  rw [group_files_files_eq files gs h] at hg hg'
  rw [← runsBy_member_key _ _ hg f hf, ← runsBy_member_key _ _ hg' f' hf', heq]

/-- Claim C5: for every input list of file descriptors, the capture groups
returned by `group_files` partition the input — the concatenation of all
groups' files is a permutation of the input (every file appears exactly
once, none dropped, none duplicated), and each group is formed by equal
filename stem. -/
theorem c5_grouping_partition (files : List MediaFile) (gs : List MediaGroup)
    (h : group_files files = .ok gs) :
    ((gs.map MediaGroup.files).flatten).Perm files ∧
      ∀ g ∈ gs, ∀ f ∈ g.files, ∀ f' ∈ g.files, f.stem = f'.stem :=
  ⟨group_files_perm files gs h, group_files_stems files gs h⟩

/-- Witness for C5 at a concrete two-file input forming one group. -/
theorem c5_witness :
    ((([⟨[fileA1, fileA2], 50⟩] : List MediaGroup).map MediaGroup.files).flatten).Perm
        [fileA1, fileA2] ∧
      ∀ g ∈ ([⟨[fileA1, fileA2], 50⟩] : List MediaGroup),
        ∀ f ∈ g.files, ∀ f' ∈ g.files, f.stem = f'.stem :=
  c5_grouping_partition [fileA1, fileA2] [⟨[fileA1, fileA2], 50⟩] rfl

/-- Claim C10: a pipeline `MediaFile` always has a capture time (the
accessor falls back to the filesystem creation time), so the
`"No valid capture times found in group"` branch is unreachable for groups
built by the pipeline: group construction succeeds on every nonempty file
list, and `group_files` always succeeds. -/
theorem c10_error_branch_unreachable :
    (∀ files : List MediaFile, files ≠ [] → ∃ g, mkMediaGroup files = .ok g) ∧
      ∀ files : List MediaFile, ∃ gs, group_files files = .ok gs :=
  ⟨fun files h => by
      obtain ⟨t, ht⟩ := mkMediaGroup_ok_of_ne_nil files h
      exact ⟨_, ht⟩,
    fun files => by
      obtain ⟨gs, h1, _⟩ := group_files_ok files
      exact ⟨gs, h1⟩⟩

/-- Witness for C10 at a concrete one-file input. -/
theorem c10_witness :
    (∃ g, mkMediaGroup [fileA1] = .ok g) ∧
      ∃ gs, group_files [fileA1] = .ok gs :=
  ⟨c10_error_branch_unreachable.1 [fileA1] (by simp),
    c10_error_branch_unreachable.2 [fileA1]⟩

/-- Claim C9 counterexample: a second JPEG whose stem already maps to a
group holding a raw-paired JPEG is *not* given a perturbed grouping key;
`group_files` merges it into the same group: on `[X.ORF, X.JPG]` from one
directory plus `X.JPG` from another, the result is a single group holding
all three files. -/
theorem c9_counterexample :
    group_files [fileC9raw, fileC9jpgA, fileC9jpgB] =
        .ok [⟨[fileC9raw, fileC9jpgA, fileC9jpgB], 100⟩] ∧
      fileC9jpgB.stem = fileC9jpgA.stem ∧ fileC9jpgB ≠ fileC9jpgA :=
  ⟨rfl, rfl, by decide⟩

/-- Claim C9 (amended): the grouper performs no key perturbation — every
input file lands in some returned group, and files sharing a stem are never
separated: distinct groups never contain files of equal stem (so a second
colliding JPEG merges into the existing group; file records, and hence
original paths, are unmodified by grouping). -/
theorem c9_amended_merge (files : List MediaFile) (gs : List MediaGroup)
    (h : group_files files = .ok gs) :
    (∀ f ∈ files, ∃ g ∈ gs, f ∈ g.files) ∧
      List.Pairwise (fun g g' => ∀ f ∈ g.files, ∀ f' ∈ g'.files, f.stem ≠ f'.stem) gs := by
  constructor
  · intro f hf
    have hperm := group_files_perm files gs h
    have hmem : f ∈ (gs.map MediaGroup.files).flatten := hperm.mem_iff.mpr hf
    rcases List.mem_flatten.mp hmem with ⟨l, hl, hfl⟩
    rcases List.mem_map.mp hl with ⟨g, hg, rfl⟩
    exact ⟨g, hg, hfl⟩
  · exact group_files_distinct_stems files gs h

/-- Witness for the amended C9 at the three-file collision input. -/
theorem c9_witness :
    (∀ f ∈ [fileC9raw, fileC9jpgA, fileC9jpgB],
        ∃ g ∈ ([⟨[fileC9raw, fileC9jpgA, fileC9jpgB], 100⟩] : List MediaGroup),
          f ∈ g.files) ∧
      List.Pairwise (fun g g' => ∀ f ∈ g.files, ∀ f' ∈ g'.files, f.stem ≠ f'.stem)
        ([⟨[fileC9raw, fileC9jpgA, fileC9jpgB], 100⟩] : List MediaGroup) :=
  c9_amended_merge [fileC9raw, fileC9jpgA, fileC9jpgB]
    [⟨[fileC9raw, fileC9jpgA, fileC9jpgB], 100⟩] rfl

/-! ## Segmentation -/

theorem timeLe_total : ∀ a b : MediaGroup, timeLe a b ∨ timeLe b a :=
  fun a b => Nat.le_total a.capture_time b.capture_time

theorem timeLe_trans : ∀ a b c : MediaGroup, timeLe a b → timeLe b c → timeLe a c :=
  fun _ _ _ hab hbc => Nat.le_trans hab hbc

theorem foldl_min_eq (xs : List Nat) (a : Nat) (h : ∀ b ∈ xs, a ≤ b) :
    xs.foldl Nat.min a = a := by
  induction xs generalizing a with
  | nil => rfl
  | cons x xs ih =>
      have hx : Nat.min a x = a := Nat.min_eq_left (h x (by simp))
      simp only [List.foldl_cons, hx]
      exact ih a fun b hb => h b (List.mem_cons_of_mem _ hb)

theorem start_time_sorted (g : MediaGroup) (rest : List MediaGroup)
    (t : SessionType) (n : Nat) (hs : List.Sorted timeLe (g :: rest)) :
    Session.start_time ⟨g :: rest, t, n⟩ = g.capture_time := by
  simp only [Session.start_time, minNat?, List.map_cons, Option.getD_some]
  apply foldl_min_eq
  intro b hb
  rcases List.mem_map.mp hb with ⟨g', hg', rfl⟩
  exact List.rel_of_sorted_cons hs g' hg'

theorem from_datetime_afternoon_iff (t : Time) :
    SessionType.from_datetime t = .AFTERNOON ↔ AFTERNOON_HOUR ≤ hourOf t := by
  unfold SessionType.from_datetime
  split <;> simp [*]

/-- The master lemma for C1: the session partition produced by the code's
loop (whose split test compares against the current session's date) equals
claim C1's chunking (whose split test compares against the previous group's
date), given the loop invariant that the current session's date is the date
of its most recent member. -/
theorem orgLoop_groups_eq (gap : ℚ) :
    ∀ (gs : List MediaGroup) ctype cdate firstG restRev,
      cdate = dateOf ((restRev.headD firstG).capture_time) →
      (orgLoop gap ctype cdate firstG restRev gs).map Session.groups =
        specChunks gap firstG restRev gs := by
  intro gs
  induction gs with
  | nil => intro ctype cdate firstG restRev _; rfl
  | cons g gs ih =>
      intro ctype cdate firstG restRev hinv
      rw [orgLoop, specChunks]
      by_cases hc : specSplit gap (restRev.headD firstG) g
      · have hc' : dateOf g.capture_time ≠ cdate ∨
            hoursDiff (restRev.headD firstG).capture_time g.capture_time > gap := by
          rw [hinv]; exact hc
        rw [if_pos hc', if_pos hc]
        simp only [List.map_cons]
        rw [ih _ _ _ _ (by simp)]
      · have hc' : ¬ (dateOf g.capture_time ≠ cdate ∨
            hoursDiff (restRev.headD firstG).capture_time g.capture_time > gap) := by
          rw [hinv]; exact hc
        rw [if_neg hc', if_neg hc]
        have hdate : dateOf g.capture_time = cdate := by
          by_contra hne
          exact hc' (Or.inl hne)
        exact ih _ _ _ _ (by simp [hdate])

theorem specChunks_no_split (gap : ℚ) :
    ∀ (gs : List MediaGroup) firstG restRev,
      List.Chain (fun a b => ¬ specSplit gap a b) (restRev.headD firstG) gs →
      specChunks gap firstG restRev gs = [firstG :: restRev.reverse ++ gs] := by
  intro gs
  induction gs with
  | nil => intro firstG restRev _; simp [specChunks]
  | cons g gs ih =>
      intro firstG restRev hchain
      rcases hchain with _ | ⟨hr, hchain⟩
      rw [specChunks, if_neg hr]
      have := ih firstG (g :: restRev) (by simpa using hchain)
      rw [this]
      simp

/-- The structural invariants of the segmenter loop: every emitted session
has number 1 and its type determined by its own start time, the first
group's time bounds all emitted start times from below, and the emitted
sessions are ascending by start time. -/
theorem orgLoop_props (gap : ℚ) :
    ∀ (gs : List MediaGroup) ctype cdate firstG restRev,
      List.Sorted timeLe (firstG :: (restRev.reverse ++ gs)) →
      ctype = SessionType.from_datetime firstG.capture_time →
      (∀ s ∈ orgLoop gap ctype cdate firstG restRev gs,
          s.number = 1 ∧ s.type = SessionType.from_datetime s.start_time ∧
          firstG.capture_time ≤ s.start_time) ∧
      List.Pairwise (fun a b => a.start_time ≤ b.start_time)
        (orgLoop gap ctype cdate firstG restRev gs) := by
  intro gs
  induction gs with
  | nil =>
      intro ctype cdate firstG restRev hsort hty
      have hsess : List.Sorted timeLe (firstG :: restRev.reverse) := by
        simpa using hsort
      have hstart := start_time_sorted firstG restRev.reverse ctype 1 hsess
      constructor
      · intro s hs
        rw [orgLoop] at hs
        simp at hs
        subst hs
        exact ⟨rfl, by rw [hstart, hty], by rw [hstart]⟩
      · rw [orgLoop]
        exact List.pairwise_singleton _ _
  | cons g gs ih =>
      intro ctype cdate firstG restRev hsort hty
      have hsort' : List.Sorted timeLe (firstG :: (restRev.reverse ++ (g :: gs))) := hsort
      have hsess : List.Sorted timeLe (firstG :: restRev.reverse) := by
        refine hsort.sublist ?_
        refine List.cons_sublist_cons.mpr ?_
        exact (List.sublist_append_left _ _)
      have htail : List.Sorted timeLe (g :: gs) := by
        refine hsort.of_cons.sublist ?_
        exact List.sublist_append_right _ _
      have hle_g : firstG.capture_time ≤ g.capture_time := by
        refine List.rel_of_sorted_cons hsort g ?_
        exact List.mem_append_right _ (List.mem_cons_self _ _)
      have hstart := start_time_sorted firstG restRev.reverse ctype 1 hsess
      rw [orgLoop]
      by_cases hc : dateOf g.capture_time ≠ cdate ∨
          hoursDiff ((restRev.headD firstG).capture_time) g.capture_time > gap
      · rw [if_pos hc]
        obtain ⟨hprops, hpw⟩ := ih (SessionType.from_datetime g.capture_time)
          (dateOf g.capture_time) g [] (by simpa using htail) rfl
        constructor
        · intro s hs
          rcases List.mem_cons.mp hs with h | h
          · subst h
            exact ⟨rfl, by rw [hstart, hty], by rw [hstart]⟩
          · obtain ⟨h1, h2, h3⟩ := hprops s h
            exact ⟨h1, h2, Nat.le_trans hle_g h3⟩
        · refine List.pairwise_cons.mpr ⟨?_, hpw⟩
          intro s hs
          obtain ⟨_, _, h3⟩ := hprops s hs
          rw [hstart]
          exact Nat.le_trans hle_g h3
      · rw [if_neg hc]
        have hsort2 : List.Sorted timeLe (firstG :: ((g :: restRev).reverse ++ gs)) := by
          simpa [List.append_assoc] using hsort
        exact ih ctype cdate firstG (g :: restRev) hsort2 hty

theorem organizeSessionsRaw_props (gs : List MediaGroup) (gap : ℚ) :
    (∀ s ∈ organizeSessionsRaw gs gap,
        s.number = 1 ∧ s.type = SessionType.from_datetime s.start_time) ∧
      List.Pairwise (fun a b => a.start_time ≤ b.start_time)
        (organizeSessionsRaw gs gap) := by
  haveI : IsTotal MediaGroup timeLe := ⟨timeLe_total⟩
  haveI : IsTrans MediaGroup timeLe := ⟨timeLe_trans⟩
  unfold organizeSessionsRaw
  cases hs : gs.insertionSort timeLe with
  | nil => simp
  | cons g0 rest =>
      have hsorted : List.Sorted timeLe (g0 :: rest) := by
        rw [← hs]
        exact List.sorted_insertionSort timeLe gs
      obtain ⟨h1, h2⟩ := orgLoop_props gap rest
        (SessionType.from_datetime g0.capture_time) (dateOf g0.capture_time)
        g0 [] (by simpa using hsorted) rfl
      exact ⟨fun s hsm => ⟨(h1 s hsm).1, (h1 s hsm).2.1⟩, h2⟩

theorem organizeSessionsRaw_spec (gs : List MediaGroup) (gap : ℚ)
    (h : List.Sorted timeLe gs) :
    (organizeSessionsRaw gs gap).map Session.groups = specSegments gap gs := by
  unfold organizeSessionsRaw
  rw [h.insertionSort_eq]
  cases gs with
  | nil => rfl
  | cons g0 rest =>
      rw [specSegments]
      exact orgLoop_groups_eq gap rest _ _ g0 [] (by simp)

/-! ## Transport through the numbering pass -/

theorem enumFrom_length {α : Type} : ∀ (n : Nat) (l : List α),
    (enumFrom n l).length = l.length := by
  intro n l
  induction l generalizing n with
  | nil => rfl
  | cons x xs ih => simp [enumFrom, ih]

theorem numberAux_preserve (A : List (Nat × Nat)) :
    ∀ (ss : List Session) (n : Nat),
      List.Forall₂
        (fun s s' => s'.groups = s.groups ∧ s'.type = s.type ∧
          s'.start_time = s.start_time)
        ss
        ((enumFrom n ss).map (fun p =>
          match lookupNum A p.1 with
          | some n' => (⟨p.2.groups, p.2.type, n'⟩ : Session)
          | none => p.2)) := by
  intro ss
  induction ss with
  | nil => intro n; exact List.Forall₂.nil
  | cons s rest ih =>
      intro n
      simp only [enumFrom, List.map_cons]
      refine List.Forall₂.cons ?_ (ih (n + 1))
      cases lookupNum A n with
      | some n' => exact ⟨rfl, rfl, rfl⟩
      | none => exact ⟨rfl, rfl, rfl⟩

theorem numberSessions_forall₂ (ss : List Session) :
    List.Forall₂
      (fun s s' => s'.groups = s.groups ∧ s'.type = s.type ∧
        s'.start_time = s.start_time)
      ss (numberSessions ss) :=
  numberAux_preserve (numberAssignments (byDate ss)) ss 0

theorem forall₂_mem_right {α β : Type} {R : α → β → Prop} :
    ∀ {as : List α} {bs : List β}, List.Forall₂ R as bs →
      ∀ b ∈ bs, ∃ a ∈ as, R a b := by
  intro as bs h
  induction h with
  | nil => intro b hb; simp at hb
  | cons hr _ ih =>
      intro b hb
      rcases List.mem_cons.mp hb with h | h
      · exact ⟨_, List.mem_cons_self _ _, h ▸ hr⟩
      · obtain ⟨a, ha, har⟩ := ih b h
        exact ⟨a, List.mem_cons_of_mem _ ha, har⟩

theorem forall₂_map_groups :
    ∀ {ss ss' : List Session},
      List.Forall₂
        (fun s s' => s'.groups = s.groups ∧ s'.type = s.type ∧
          s'.start_time = s.start_time) ss ss' →
      ss'.map Session.groups = ss.map Session.groups := by
  intro ss ss' h
  induction h with
  | nil => rfl
  | cons hr _ ih => simp [ih, hr.1]

theorem forall₂_pairwise_start :
    ∀ {ss ss' : List Session},
      List.Forall₂
        (fun s s' => s'.groups = s.groups ∧ s'.type = s.type ∧
          s'.start_time = s.start_time) ss ss' →
      List.Pairwise (fun a b => a.start_time ≤ b.start_time) ss →
      List.Pairwise (fun a b => a.start_time ≤ b.start_time) ss' := by
  intro ss ss' h
  induction h with
  | nil => intro _; exact List.Pairwise.nil
  | cons hr hf ih =>
      intro hp
      rcases List.pairwise_cons.mp hp with ⟨hhead, htail⟩
      refine List.pairwise_cons.mpr ⟨?_, ih htail⟩
      intro b' hb'
      obtain ⟨b, hb, hbr⟩ := forall₂_mem_right hf b' hb'
      rw [hr.2.2, hbr.2.2]
      exact hhead b hb

theorem organize_sessions_map_groups (gs : List MediaGroup) (gap : ℚ) :
    (organize_sessions gs gap).map Session.groups =
      (organizeSessionsRaw gs gap).map Session.groups :=
  forall₂_map_groups (numberSessions_forall₂ (organizeSessionsRaw gs gap))

theorem numberSessions_length (ss : List Session) :
    (numberSessions ss).length = ss.length :=
  ((numberSessions_forall₂ ss).length_eq).symm

theorem organize_sessions_mem_transport (gs : List MediaGroup) (gap : ℚ)
    (s' : Session) (hs' : s' ∈ organize_sessions gs gap) :
    ∃ s ∈ organizeSessionsRaw gs gap,
      s'.type = s.type ∧ s'.start_time = s.start_time := by
  obtain ⟨s, hs, hr⟩ :=
    forall₂_mem_right (numberSessions_forall₂ (organizeSessionsRaw gs gap)) s' hs'
  exact ⟨s, hs, hr.2.1, hr.2.2⟩

theorem organize_sessions_length (gs : List MediaGroup) (gap : ℚ) :
    (organize_sessions gs gap).length = (organizeSessionsRaw gs gap).length :=
  numberSessions_length _

/-- Two groups exactly three hours apart on one date: one session. -/
theorem raw_eq_exact_gap :
    organizeSessionsRaw [mkG 36000, mkG 46800] 3 =
      [⟨[mkG 36000, mkG 46800], SessionType.MORNING, 1⟩] := by
  norm_num [organizeSessionsRaw, orgLoop, List.insertionSort, List.orderedInsert,
    timeLe, mkG, hoursDiff, dateOf, SessionType.from_datetime, hourOf,
    AFTERNOON_HOUR]

/-- Two groups thirty minutes apart across midnight: two sessions. -/
theorem raw_eq_midnight :
    organizeSessionsRaw [mkG 85500, mkG 87300] 3 =
      [⟨[mkG 85500], SessionType.AFTERNOON, 1⟩,
        ⟨[mkG 87300], SessionType.MORNING, 1⟩] := by
  norm_num [organizeSessionsRaw, orgLoop, List.insertionSort, List.orderedInsert,
    timeLe, mkG, hoursDiff, dateOf, SessionType.from_datetime, hourOf,
    AFTERNOON_HOUR]

theorem chain_no_split (gap : ℚ) (d : Nat) :
    ∀ (rest : List MediaGroup) (g0 : MediaGroup),
      (∀ g ∈ g0 :: rest, dateOf g.capture_time = d) →
      List.Chain (fun a b => hoursDiff a.capture_time b.capture_time ≤ gap) g0 rest →
      List.Chain (fun a b => ¬ specSplit gap a b) g0 rest := by
  intro rest
  induction rest with
  | nil => intro g0 _ _; exact List.Chain.nil
  | cons b l ih =>
      intro g0 hd hc
      rcases hc with _ | ⟨hr, hc⟩
      refine List.Chain.cons ?_
        (ih b (fun g hg => hd g (List.mem_cons_of_mem _ hg)) hc)
      intro hsplit
      rcases hsplit with h | h
      · exact h (by rw [hd b (by simp), hd g0 (by simp)])
      · exact absurd h (not_lt.mpr hr)

/-- Claim C1: for groups sorted ascending by capture time,
`organize_sessions` starts a new session at a group iff the group's
calendar date changes or the elapsed hours since the immediately previous
group strictly exceed the threshold (`orgLoop_groups_eq` shows the code's
current-session-date test coincides with the previous-group-date test, the
dates being constant within a session): the produced partition equals the
claim-level chunking.  In particular two groups whose gap equals the
threshold exactly stay in one session, and two groups thirty minutes apart
on different calendar dates split. -/
theorem c1_gap_and_date_rule (gs : List MediaGroup) (gap : ℚ)
    (hs : List.Sorted timeLe gs) :
    (organize_sessions gs gap).map Session.groups = specSegments gap gs ∧
      (organize_sessions [mkG 36000, mkG 46800] 3).length = 1 ∧
      (organize_sessions [mkG 85500, mkG 87300] 3).length = 2 := by
  refine ⟨?_, ?_, ?_⟩
  · rw [organize_sessions_map_groups]
    exact organizeSessionsRaw_spec gs gap hs
  · rw [organize_sessions_length, raw_eq_exact_gap]
    rfl
  · rw [organize_sessions_length, raw_eq_midnight]
    rfl

/-- Witness for C1 at a concrete sorted two-group input. -/
theorem c1_witness :
    (organize_sessions [mkG 36000, mkG 46800] 3).map Session.groups =
      specSegments 3 [mkG 36000, mkG 46800] :=
  (c1_gap_and_date_rule [mkG 36000, mkG 46800] 3 (by decide)).1

/-- Claim C3: a period-tag change alone, without a date change or a gap
breach, never starts a new session — a sorted run of groups on one calendar
date, each within the gap threshold of its predecessor, forms exactly one
session; and every produced session's period tag is Afternoon iff the hour
of its start time is at least the threshold hour (14), regardless of where
later members fall. -/
theorem c3_period_rule :
    (∀ (gs : List MediaGroup) (gap : ℚ) (d : Nat),
        List.Sorted timeLe gs → gs ≠ [] →
        (∀ g ∈ gs, dateOf g.capture_time = d) →
        List.Chain' (fun a b => hoursDiff a.capture_time b.capture_time ≤ gap) gs →
        (organize_sessions gs gap).length = 1) ∧
      ∀ (gs : List MediaGroup) (gap : ℚ) (s : Session),
        s ∈ organize_sessions gs gap →
        (s.type = SessionType.AFTERNOON ↔ AFTERNOON_HOUR ≤ hourOf s.start_time) := by
  constructor
  · intro gs gap d hs hne hdate hgap
    rw [organize_sessions_length]
    have hmap := organizeSessionsRaw_spec gs gap hs
    have hlen2 : (organizeSessionsRaw gs gap).length = (specSegments gap gs).length := by
      rw [← List.length_map (organizeSessionsRaw gs gap) Session.groups, hmap]
    cases gs with
    | nil => exact absurd rfl hne
    | cons g0 rest =>
        rw [hlen2, specSegments]
        have hchain : List.Chain (fun a b => ¬ specSplit gap a b) g0 rest :=
          chain_no_split gap d rest g0 hdate hgap
        rw [specChunks_no_split gap rest g0 [] (by simpa using hchain)]
        rfl
  · intro gs gap s hs
    obtain ⟨s0, hs0, hty, hst⟩ := organize_sessions_mem_transport gs gap s hs
    have hty0 := ((organizeSessionsRaw_props gs gap).1 s0 hs0).2
    rw [hty, hst, hty0]
    exact from_datetime_afternoon_iff _

/-- Witness for C3 at a concrete run spanning 13:45 to 14:15 on one date. -/
theorem c3_witness :
    (organize_sessions [mkG 49500, mkG 50400, mkG 51300] 3).length = 1 :=
  c3_period_rule.1 [mkG 49500, mkG 50400, mkG 51300] 3 0 (by decide) (by simp)
    (by decide)
    (by norm_num [List.chain'_cons, List.chain'_singleton, List.chain_cons,
      hoursDiff, mkG])

/-! ## Placement routing and destination conflicts -/

/-- Claim C4 (code behaviour at the failing input): in the capture group
`[X.ORI, X.JPG]`, `MediaFile.format` yields the literal suffix `"ori"`, so
`get_by_format "orf"` finds nothing and the JPEG is routed to the main
image directory, whereas the claim's routing (raw-alias counted as a raw
format, as the repository's own `test_models.py` asserts via
`MediaFile("test.ORI").format == "orf"`) sends it to `jpeg_duplicates`. -/
theorem c4_routing_ori_divergence :
    routeIdx groupC4 1 = some Target.images ∧
      claimRoute groupC4 fileJPG = Target.jpegDuplicates ∧
      fileORI.format = "ori" ∧ groupC4.get_by_format "orf" = none :=
  ⟨by decide, by decide, rfl, rfl⟩

/-- Claim C6 (code behaviour at the failing input): placement uses
`source.name`, not `MediaFile.output_name`, so `X.ORI` is placed under the
name `X.ORI` although its output-naming rule yields `X.ORI.ORF`. -/
theorem c6_placed_name_divergence :
    placedName fileORI = "X.ORI" ∧ fileORI.output_name = "X.ORI.ORF" ∧
      placedName fileORI ≠ fileORI.output_name :=
  ⟨rfl, rfl, by decide⟩

/-- Claim C8 counterexample: with an existing destination entry and the
overwrite flag clear, the code's placement step replaces the entry (the new
file identifier `2` overwrites the old `1`), while the claim's no-flag
behaviour would leave the state unchanged. -/
theorem c8_counterexample :
    fsLookup (placeFile [((Target.images, "A.JPG"), 1)] (Target.images, "A.JPG") 2)
        (Target.images, "A.JPG") = some 2 ∧
      placeFile [((Target.images, "A.JPG"), 1)] (Target.images, "A.JPG") 2 ≠
        placeFileClaim false [((Target.images, "A.JPG"), 1)]
          (Target.images, "A.JPG") 2 :=
  ⟨rfl, by decide⟩

theorem find?_filter_of_imp {α : Type} (p q : α → Bool)
    (h : ∀ e, p e = true → q e = true) :
    ∀ l : List α, (l.filter q).find? p = l.find? p := by
  intro l
  induction l with
  | nil => rfl
  | cons e l ih =>
      by_cases hp : p e = true
      · rw [List.filter_cons, if_pos (h e hp)]
        rw [List.find?_cons_of_pos _ hp, List.find?_cons_of_pos _ hp]
      · have hp' : p e = false := by
          cases hpe : p e with
          | true => exact absurd hpe hp
          | false => rfl
        rw [List.filter_cons]
        cases hq : q e with
        | true =>
            simp only [if_pos]
            rw [List.find?_cons_of_neg _ (by simp [hp']),
              List.find?_cons_of_neg _ (by simp [hp'])]
            exact ih
        | false =>
            simp only [Bool.false_eq_true, if_neg, if_false]
            rw [List.find?_cons_of_neg _ (by simp [hp'])]
            exact ih

/-- Claim C8 (amended): when a destination path already exists it is
unconditionally removed and replaced — the placement step always installs
the new file at the target, leaves every other destination path unchanged,
and coincides with the claim's overwrite-enabled branch; no overwrite flag
exists anywhere in the placement code or the CLI. -/
theorem c8_amended_always_replace (fs : FsState) (tgt : Target × String) (fid : Nat) :
    fsLookup (placeFile fs tgt fid) tgt = some fid ∧
      (∀ k, k ≠ tgt → fsLookup (placeFile fs tgt fid) k = fsLookup fs k) ∧
      placeFile fs tgt fid = placeFileClaim true fs tgt fid := by
  refine ⟨?_, ?_, ?_⟩
  · unfold placeFile fsLookup
    rw [List.find?_append]
    have hnone : (fs.filter (fun e => decide (e.1 ≠ tgt))).find?
        (fun e => decide (e.1 = tgt)) = none := by
      rw [List.find?_eq_none]
      intro x hx
      rcases List.mem_filter.mp hx with ⟨_, hne⟩
      simp at hne ⊢
      exact hne
    rw [hnone]
    simp [List.find?]
  · intro k hk
    unfold placeFile fsLookup
    rw [List.find?_append]
    rw [find?_filter_of_imp _ _ ?_]
    · cases hf : fs.find? (fun e => decide (e.1 = k)) with
      | some x => simp
      | none =>
          simp only [Option.none_or]
          have : ((tgt, fid) : (Target × String) × Nat).1 ≠ k := fun h => hk h.symm
          rw [List.find?_cons_of_neg _ (by simpa using this), List.find?_nil]
    · intro e he
      simp at he ⊢
      rw [he]
      exact hk
  · unfold placeFileClaim
    rw [if_neg (by simp)]
    rfl

/-- Witness for the amended C8: a placement that replaces one path leaves a
different occupied path untouched. -/
theorem c8_witness :
    fsLookup (placeFile [((Target.videos, "B.MOV"), 7)] (Target.images, "A.JPG") 2)
        (Target.videos, "B.MOV") =
      fsLookup [((Target.videos, "B.MOV"), 7)] (Target.videos, "B.MOV") :=
  (c8_amended_always_replace [((Target.videos, "B.MOV"), 7)]
    (Target.images, "A.JPG") 2).2.1 (Target.videos, "B.MOV") (by decide)

/-! ## The numbering dictionary -/

theorem addToBuckets_bget_same (d i : Nat) :
    ∀ b, bget (addToBuckets b d i) d = bget b d ++ [i] := by
  intro b
  induction b with
  | nil => simp [addToBuckets, bget, List.find?]
  | cons p rest ih =>
      rcases p with ⟨d', idxs⟩
      by_cases h : d' = d
      · subst h
        rw [addToBuckets]
        simp [bget, List.find?]
      · rw [addToBuckets, if_neg h]
        have hbe : (d' == d) = false := by simp [h]
        simp only [bget, List.find?, hbe] at ih ⊢
        exact ih

theorem addToBuckets_bget_ne (d i d' : Nat) (hne : d' ≠ d) :
    ∀ b, bget (addToBuckets b d i) d' = bget b d' := by
  intro b
  induction b with
  | nil =>
      have : (d == d') = false := by simp; exact fun h => hne h.symm
      simp [addToBuckets, bget, List.find?, this]
  | cons p rest ih =>
      rcases p with ⟨d'', idxs⟩
      by_cases h : d'' = d
      · subst h
        rw [addToBuckets]
        simp only [if_pos rfl]
        have : (d'' == d') = false := by simp; exact fun h => hne h.symm
        simp [bget, List.find?, this]
      · rw [addToBuckets, if_neg h]
        by_cases h2 : d'' = d'
        · subst h2
          simp [bget, List.find?]
        · have : (d'' == d') = false := by simp [h2]
          simp only [bget, List.find?, this] at ih ⊢
          exact ih

theorem bkeys_addToBuckets (d i : Nat) :
    ∀ b, bkeys (addToBuckets b d i) =
      if d ∈ bkeys b then bkeys b else bkeys b ++ [d] := by
  intro b
  induction b with
  | nil => simp [addToBuckets, bkeys]
  | cons p rest ih =>
      rcases p with ⟨d', idxs⟩
      have hcons : bkeys ((d', idxs) :: rest) = d' :: bkeys rest := rfl
      by_cases h : d' = d
      · subst h
        rw [addToBuckets, if_pos rfl,
          if_pos (show d' ∈ bkeys ((d', idxs) :: rest) from List.mem_cons_self _ _)]
        rfl
      · rw [addToBuckets, if_neg h]
        have hcons2 : bkeys ((d', idxs) :: addToBuckets rest d i) =
            d' :: bkeys (addToBuckets rest d i) := rfl
        rw [hcons2, ih, hcons]
        by_cases h2 : d ∈ bkeys rest
        · rw [if_pos h2, if_pos (List.mem_cons_of_mem _ h2)]
        · rw [if_neg h2, if_neg ?_]
          · rfl
          · intro hm
            rcases List.mem_cons.mp hm with he | he
            · exact h he.symm
            · exact h2 he

theorem bkeys_addToBuckets_nodup (d i : Nat) (b : List (Nat × List Nat))
    (h : (bkeys b).Nodup) : (bkeys (addToBuckets b d i)).Nodup := by
  rw [bkeys_addToBuckets]
  by_cases hm : d ∈ bkeys b
  · rw [if_pos hm]; exact h
  · rw [if_neg hm]
    simp [List.nodup_append, h, hm]

theorem byDate_fold_bget (d : Nat) :
    ∀ (l : List (Nat × Session)) (acc : List (Nat × List Nat)),
      bget (l.foldl (fun acc p => addToBuckets acc (dateKey p.2) p.1) acc) d =
        bget acc d ++ (l.filter (fun p => dateKey p.2 == d)).map (·.1) := by
  intro l
  induction l with
  | nil => intro acc; simp
  | cons p l ih =>
      intro acc
      rw [List.foldl_cons, ih]
      by_cases h : dateKey p.2 = d
      · rw [h, addToBuckets_bget_same]
        have : (dateKey p.2 == d) = true := by simp [h]
        rw [List.filter_cons, if_pos this]
        simp
      · have hbe : (dateKey p.2 == d) = false := by simp [h]
        rw [addToBuckets_bget_ne _ _ _ (fun he => h he.symm)]
        rw [List.filter_cons, if_neg (by simp [hbe])]

theorem byDate_fold_nodup :
    ∀ (l : List (Nat × Session)) (acc : List (Nat × List Nat)),
      (bkeys acc).Nodup →
      (bkeys (l.foldl (fun acc p => addToBuckets acc (dateKey p.2) p.1) acc)).Nodup := by
  intro l
  induction l with
  | nil => intro acc h; exact h
  | cons p l ih =>
      intro acc h
      rw [List.foldl_cons]
      exact ih _ (bkeys_addToBuckets_nodup _ _ _ h)

theorem byDate_bget (ss : List Session) (d : Nat) :
    bget (byDate ss) d =
      ((enumFrom 0 ss).filter (fun p => dateKey p.2 == d)).map (·.1) := by
  unfold byDate
  rw [byDate_fold_bget]
  rfl

theorem byDate_nodup (ss : List Session) : (bkeys (byDate ss)).Nodup := by
  unfold byDate
  exact byDate_fold_nodup _ [] (by simp [bkeys])

theorem bget_entry :
    ∀ (b : List (Nat × List Nat)), (bkeys b).Nodup → ∀ p ∈ b, bget b p.1 = p.2 := by
  intro b
  induction b with
  | nil => intro _ p hp; simp at hp
  | cons q rest ih =>
      intro hnd p hp
      rcases List.mem_cons.mp hp with h | h
      · subst h
        simp [bget, List.find?]
      · have hq : q.1 ∉ bkeys rest := by
          simp only [bkeys, List.map_cons, List.nodup_cons] at hnd
          exact hnd.1
        have hne : (q.1 == p.1) = false := by
          simp only [beq_eq_false_iff_ne, ne_eq]
          intro he
          exact hq (he ▸ List.mem_map_of_mem (·.1) h)
        have htl : (bkeys rest).Nodup := by
          simp only [bkeys, List.map_cons, List.nodup_cons] at hnd
          exact hnd.2
        simp only [bget, List.find?, hne]
        exact ih htl p h

theorem bget_ne_nil_mem_keys (b : List (Nat × List Nat)) (d : Nat)
    (h : bget b d ≠ []) : d ∈ bkeys b := by
  unfold bget at h
  cases hf : b.find? (fun p => p.1 == d) with
  | none => rw [hf] at h; simp at h
  | some p =>
      have hp := List.mem_of_find?_eq_some hf
      have hpd := List.find?_some hf
      simp at hpd
      exact hpd ▸ List.mem_map_of_mem (·.1) hp

/-! ## Enumeration and assignment lookup -/

theorem enumFrom_mem {α : Type} :
    ∀ (l : List α) (n : Nat) (p : Nat × α), p ∈ enumFrom n l →
      ∃ j, ∃ h : j < l.length, p.1 = n + j ∧ p.2 = l.get ⟨j, h⟩ := by
  intro l
  induction l with
  | nil => intro n p hp; simp [enumFrom] at hp
  | cons x xs ih =>
      intro n p hp
      rcases List.mem_cons.mp hp with h | h
      · exact ⟨0, by simp, by simp [h], by simp [h]⟩
      · rcases ih (n + 1) p h with ⟨j, hj, h1, h2⟩
        exact ⟨j + 1, by simpa using Nat.succ_lt_succ hj, by omega, by simpa using h2⟩

theorem enumFrom_get_mem {α : Type} :
    ∀ (l : List α) (n j : Nat) (h : j < l.length),
      (n + j, l.get ⟨j, h⟩) ∈ enumFrom n l := by
  intro l
  induction l with
  | nil => intro n j h; simp at h
  | cons x xs ih =>
      intro n j h
      cases j with
      | zero => simp [enumFrom]
      | succ j =>
          have := ih (n + 1) j (by simpa using Nat.lt_of_succ_lt_succ h)
          rw [enumFrom]
          refine List.mem_cons_of_mem _ ?_
          have harith : n + (j + 1) = n + 1 + j := by omega
          rw [harith]
          simpa using this

theorem enumFrom_fst_lower {α : Type} :
    ∀ (l : List α) (n : Nat) (p : Nat × α), p ∈ enumFrom n l → n ≤ p.1 := by
  intro l n p hp
  rcases enumFrom_mem l n p hp with ⟨j, _, h1, _⟩
  omega

theorem enumFrom_fst_pairwise {α : Type} :
    ∀ (l : List α) (n : Nat),
      List.Pairwise (· < ·) ((enumFrom n l).map (·.1)) := by
  intro l
  induction l with
  | nil => intro n; simp [enumFrom]
  | cons x xs ih =>
      intro n
      rw [enumFrom, List.map_cons]
      refine List.pairwise_cons.mpr ⟨?_, ih (n + 1)⟩
      intro m hm
      rcases List.mem_map.mp hm with ⟨p, hp, rfl⟩
      have := enumFrom_fst_lower xs (n + 1) p hp
      omega

theorem enumFrom_filter_length {α : Type} (P : α → Bool) :
    ∀ (l : List α) (n : Nat),
      ((enumFrom n l).filter (fun p => P p.2)).length = (l.filter P).length := by
  intro l
  induction l with
  | nil => intro n; rfl
  | cons x xs ih =>
      intro n
      rw [enumFrom, List.filter_cons, List.filter_cons]
      cases hP : P x with
      | true => simp only [hP, if_pos, List.length_cons]; rw [ih]
      | false => simp only [hP, Bool.false_eq_true, if_neg, if_false]; exact ih (n + 1)

theorem enumFrom_append {α : Type} :
    ∀ (l₁ l₂ : List α) (n : Nat),
      enumFrom n (l₁ ++ l₂) = enumFrom n l₁ ++ enumFrom (n + l₁.length) l₂ := by
  intro l₁
  induction l₁ with
  | nil => intro l₂ n; simp [enumFrom]
  | cons x xs ih =>
      intro l₂ n
      have harith : n + 1 + xs.length = n + (xs.length + 1) := by omega
      rw [List.cons_append, enumFrom, enumFrom, ih, List.length_cons, ← harith]
      rfl

theorem enumFrom_getElem? {α : Type} :
    ∀ (l : List α) (n j : Nat),
      (enumFrom n l)[j]? = l[j]?.map (fun s => (n + j, s)) := by
  intro l
  induction l with
  | nil => intro n j; simp [enumFrom]
  | cons x xs ih =>
      intro n j
      cases j with
      | zero => simp [enumFrom]
      | succ j =>
          rw [enumFrom]
          have harith : n + (j + 1) = n + 1 + j := by omega
          simp only [List.getElem?_cons_succ]
          rw [ih (n + 1) j, harith]

theorem lookupNum_append (A B : List (Nat × Nat)) (i : Nat) :
    lookupNum (A ++ B) i =
      match lookupNum A i with
      | some n => some n
      | none => lookupNum B i := by
  unfold lookupNum
  rw [List.find?_append]
  cases hA : A.find? (fun p => p.1 == i) with
  | none => simp
  | some a => simp

theorem asg_lookup (i : Nat) :
    ∀ (idxs : List Nat) (k : Nat), List.Pairwise (· < ·) idxs → i ∈ idxs →
      lookupNum ((enumFrom k idxs).map (fun q => (q.2, q.1))) i =
        some (k + (idxs.filter (fun j => decide (j < i))).length) := by
  intro idxs
  induction idxs with
  | nil => intro k _ hm; simp at hm
  | cons x rest ih =>
      intro k hpw hmem
      rcases List.pairwise_cons.mp hpw with ⟨hx, htl⟩
      rw [enumFrom, List.map_cons]
      by_cases hxi : x = i
      · subst hxi
        have hfe : (x :: rest).filter (fun j => decide (j < x)) = [] := by
          rw [List.filter_eq_nil_iff]
          intro j hj
          rcases List.mem_cons.mp hj with h | h
          · simp [h]
          · have := hx j h
            simp only [decide_eq_true_eq]
            omega
        rw [hfe]
        unfold lookupNum
        simp [List.find?]
      · have hlt : x < i := by
          rcases List.mem_cons.mp hmem with h | h
          · exact absurd h.symm hxi
          · exact hx i h
        have hmem' : i ∈ rest := by
          rcases List.mem_cons.mp hmem with h | h
          · exact absurd h.symm hxi
          · exact h
        have hrec := ih (k + 1) htl hmem'
        have hcount : ((x :: rest).filter (fun j => decide (j < i))).length =
            (rest.filter (fun j => decide (j < i))).length + 1 := by
          rw [List.filter_cons]
          simp [hlt]
        rw [hcount]
        unfold lookupNum at hrec ⊢
        simp only [List.find?]
        have hxbeq : (x == i) = false := by simp [hxi]
        simp only [hxbeq]
        rw [hrec]
        congr 1
        omega

theorem asg_lookup_none (i : Nat) :
    ∀ (idxs : List Nat) (k : Nat), i ∉ idxs →
      lookupNum ((enumFrom k idxs).map (fun q => (q.2, q.1))) i = none := by
  intro idxs
  induction idxs with
  | nil => intro k _; rfl
  | cons x rest ih =>
      intro k hm
      have hx : x ≠ i := fun h => hm (h ▸ List.mem_cons_self _ _)
      have hrest : i ∉ rest := fun h => hm (List.mem_cons_of_mem _ h)
      rw [enumFrom, List.map_cons]
      unfold lookupNum
      rw [List.find?_cons_of_neg _ (by simp [hx])]
      have := ih (k + 1) hrest
      unfold lookupNum at this
      rw [this]

theorem numberAssignments_lookup_none (i : Nat) :
    ∀ (buckets : List (Nat × List Nat)), (∀ q ∈ buckets, i ∉ q.2) →
      lookupNum (numberAssignments buckets) i = none := by
  intro buckets
  induction buckets with
  | nil => intro _; rfl
  | cons p rest ih =>
      intro h
      have hstep : numberAssignments (p :: rest) =
          (if 1 < p.2.length then (enumFrom 1 p.2).map (fun q => (q.2, q.1)) ++
            numberAssignments rest else numberAssignments rest) := by
        unfold numberAssignments
        rw [List.foldr_cons]
      rw [hstep]
      by_cases hl : 1 < p.2.length
      · rw [if_pos hl, lookupNum_append,
          asg_lookup_none i p.2 1 (h p (List.mem_cons_self _ _))]
        exact ih fun q hq => h q (List.mem_cons_of_mem _ hq)
      · rw [if_neg hl]
        exact ih fun q hq => h q (List.mem_cons_of_mem _ hq)

theorem assignments_lookup (i d : Nat) (IDX : List Nat) :
    ∀ (buckets : List (Nat × List Nat)),
      (∀ p ∈ buckets, p.1 = d → p.2 = IDX) →
      (∀ p ∈ buckets, i ∈ p.2 → p.1 = d) →
      (bkeys buckets).Nodup →
      i ∈ IDX → List.Pairwise (· < ·) IDX →
      d ∈ bkeys buckets →
      lookupNum (numberAssignments buckets) i =
        (if 1 < IDX.length
         then some (1 + (IDX.filter (fun j => decide (j < i))).length)
         else none) := by
  intro buckets
  induction buckets with
  | nil => intro _ _ _ _ _ hd; simp [bkeys] at hd
  | cons p rest ih =>
      intro h1 h2 hnd hiI hpw hd
      have hstep : numberAssignments (p :: rest) =
          (if 1 < p.2.length then (enumFrom 1 p.2).map (fun q => (q.2, q.1)) ++
            numberAssignments rest else numberAssignments rest) := by
        unfold numberAssignments
        rw [List.foldr_cons]
      rw [hstep]
      have hkcons : bkeys (p :: rest) = p.1 :: bkeys rest := rfl
      by_cases hpd : p.1 = d
      · have hIDX : p.2 = IDX := h1 p (List.mem_cons_self _ _) hpd
        rw [hIDX]
        by_cases hl : 1 < IDX.length
        · rw [if_pos hl, if_pos hl, lookupNum_append, asg_lookup i IDX 1 hpw hiI]
        · have hnone : ∀ q ∈ rest, i ∉ q.2 := by
            intro q hq hin
            have hq1 : q.1 = d := h2 q (List.mem_cons_of_mem _ hq) hin
            have hp1 : p.1 ∉ bkeys rest := by
              rw [hkcons] at hnd
              exact (List.nodup_cons.mp hnd).1
            exact hp1 (hpd ▸ hq1 ▸ List.mem_map_of_mem (·.1) hq)
          rw [if_neg hl, if_neg hl]
          exact numberAssignments_lookup_none i rest hnone
      · have hip : i ∉ p.2 := fun hin => hpd (h2 p (List.mem_cons_self _ _) hin)
        have hd' : d ∈ bkeys rest := by
          rw [hkcons] at hd
          rcases List.mem_cons.mp hd with h | h
          · exact absurd h.symm hpd
          · exact h
        have hnd' : (bkeys rest).Nodup := by
          rw [hkcons] at hnd
          exact (List.nodup_cons.mp hnd).2
        have hrec := ih (fun q hq => h1 q (List.mem_cons_of_mem _ hq))
          (fun q hq => h2 q (List.mem_cons_of_mem _ hq)) hnd' hiI hpw hd'
        by_cases hl : 1 < p.2.length
        · rw [if_pos hl, lookupNum_append, asg_lookup_none i p.2 1 hip, hrec]
        · rw [if_neg hl]
          exact hrec

theorem bget_mem_iff (ss : List Session) (d i : Nat) :
    i ∈ bget (byDate ss) d ↔ ∃ h : i < ss.length, dateKey (ss.get ⟨i, h⟩) = d := by
  rw [byDate_bget]
  constructor
  · intro hm
    rcases List.mem_map.mp hm with ⟨p, hpf, rfl⟩
    rcases List.mem_filter.mp hpf with ⟨hpe, hpd⟩
    rcases enumFrom_mem _ _ _ hpe with ⟨j, hj, h1, h2⟩
    have hj0 : p.1 = j := by omega
    subst hj0
    refine ⟨hj, ?_⟩
    rw [← h2]
    simpa using hpd
  · rintro ⟨h, hd⟩
    refine List.mem_map.mpr
      ⟨(i, ss.get ⟨i, h⟩), List.mem_filter.mpr ⟨?_, by simpa using hd⟩, rfl⟩
    have := enumFrom_get_mem ss 0 i h
    simpa using this

theorem bget_sorted (ss : List Session) (d : Nat) :
    List.Pairwise (· < ·) (bget (byDate ss) d) := by
  rw [byDate_bget]
  have hall := enumFrom_fst_pairwise ss 0
  have hsub : List.Sublist
      (((enumFrom 0 ss).filter (fun p => dateKey p.2 == d)).map (·.1))
      ((enumFrom 0 ss).map (·.1)) :=
    (List.filter_sublist _).map _
  exact hall.sublist hsub

theorem bucket_length (ss : List Session) (d : Nat) :
    (bget (byDate ss) d).length = (ss.filter (fun t => dateKey t == d)).length := by
  rw [byDate_bget, List.length_map,
    enumFrom_filter_length (fun t => dateKey t == d)]

theorem bucket_filter_count (ss : List Session) (d i : Nat) (h : i ≤ ss.length) :
    ((bget (byDate ss) d).filter (fun j => decide (j < i))).length =
      ((ss.take i).filter (fun t => dateKey t == d)).length := by
  rw [byDate_bget, List.filter_map, List.length_map, List.filter_filter]
  simp only [Function.comp]
  conv_lhs => rw [show ss = ss.take i ++ ss.drop i from (List.take_append_drop i ss).symm]
  rw [enumFrom_append, List.filter_append, List.length_append]
  have hlen : (ss.take i).length = i := by rw [List.length_take]; omega
  have hdrop : ((enumFrom (0 + (ss.take i).length) (ss.drop i)).filter
      (fun p => decide (p.1 < i) && (dateKey p.2 == d))) = [] := by
    rw [List.filter_eq_nil_iff]
    intro p hp
    have hlow := enumFrom_fst_lower _ _ _ hp
    simp only [Bool.and_eq_true, decide_eq_true_eq, not_and]
    intro hcon
    omega
  have htake : ((enumFrom 0 (ss.take i)).filter
      (fun p => decide (p.1 < i) && (dateKey p.2 == d))).length =
      ((ss.take i).filter (fun t => dateKey t == d)).length := by
    rw [List.filter_congr ?_, enumFrom_filter_length (fun t => dateKey t == d)]
    intro p hp
    rcases enumFrom_mem _ _ _ hp with ⟨j, hj, hf, _⟩
    have hplt : decide (p.1 < i) = true := by
      simp only [decide_eq_true_eq]
      omega
    simp [hplt]
  rw [hdrop, htake]
  simp

theorem numberSessions_getD (ss : List Session) (i : Nat) (h : i < ss.length) :
    (numberSessions ss).getD i defaultSession =
      (if 1 < (ss.filter (fun t => dateKey t == dateKey (ss.get ⟨i, h⟩))).length
       then (⟨(ss.get ⟨i, h⟩).groups, (ss.get ⟨i, h⟩).type,
          1 + ((ss.take i).filter
            (fun t => dateKey t == dateKey (ss.get ⟨i, h⟩))).length⟩ : Session)
       else ss.get ⟨i, h⟩) := by
  have hget : (numberSessions ss)[i]? = some (
      match lookupNum (numberAssignments (byDate ss)) i with
      | some n => (⟨(ss.get ⟨i, h⟩).groups, (ss.get ⟨i, h⟩).type, n⟩ : Session)
      | none => ss.get ⟨i, h⟩) := by
    unfold numberSessions
    rw [List.getElem?_map, enumFrom_getElem?, List.getElem?_eq_getElem h]
    simp only [Option.map_some', Nat.zero_add]
    rfl
  rw [List.getD_eq_getElem?_getD, hget, Option.getD_some]
  set d := dateKey (ss.get ⟨i, h⟩) with hd_def
  have hIDXmem : i ∈ bget (byDate ss) d := (bget_mem_iff ss d i).mpr ⟨h, rfl⟩
  have h1 : ∀ p ∈ byDate ss, p.1 = d → p.2 = bget (byDate ss) d := by
    intro p hp hpd
    rw [← hpd]
    exact (bget_entry _ (byDate_nodup ss) p hp).symm
  have h2 : ∀ p ∈ byDate ss, i ∈ p.2 → p.1 = d := by
    intro p hp hin
    have hbp := bget_entry _ (byDate_nodup ss) p hp
    rw [← hbp] at hin
    rcases (bget_mem_iff ss p.1 i).mp hin with ⟨h', hd'⟩
    have hgg : ss.get ⟨i, h'⟩ = ss.get ⟨i, h⟩ := rfl
    rw [hgg] at hd'
    exact hd'.symm
  have hdkeys : d ∈ bkeys (byDate ss) := by
    refine bget_ne_nil_mem_keys _ _ ?_
    intro hnil
    rw [hnil] at hIDXmem
    simp at hIDXmem
  rw [assignments_lookup i d (bget (byDate ss) d) (byDate ss) h1 h2
    (byDate_nodup ss) hIDXmem (bget_sorted ss d) hdkeys]
  by_cases hl : 1 < (bget (byDate ss) d).length
  · rw [if_pos hl, if_pos (bucket_length ss d ▸ hl),
      bucket_filter_count ss d i (Nat.le_of_lt h)]
  · rw [if_neg hl, if_neg (fun hh => hl ((bucket_length ss d).symm ▸ hh))]

/-- Two groups five hours apart on one date: two sessions on the same day,
the first in the morning, the second in the afternoon. -/
theorem raw_eq_same_day_split :
    organizeSessionsRaw [mkG 36000, mkG 54000] 3 =
      [⟨[mkG 36000], SessionType.MORNING, 1⟩,
        ⟨[mkG 54000], SessionType.AFTERNOON, 1⟩] := by
  norm_num [organizeSessionsRaw, orgLoop, List.insertionSort, List.orderedInsert,
    timeLe, mkG, hoursDiff, dateOf, SessionType.from_datetime, hourOf,
    AFTERNOON_HOUR]

/-- Claim C2 counterexample: a morning and an afternoon session on the same
date — each alone in its (date, period) bucket — still get numbers 1 and 2,
because `_number_sessions` buckets by date only; the afternoon session's
rendered name carries the `-2` suffix the claim forbids. -/
theorem c2_counterexample :
    (organize_sessions [mkG 36000, mkG 54000] 3).map Session.number = [1, 2] ∧
      (organize_sessions [mkG 36000, mkG 54000] 3).map Session.type =
        [SessionType.MORNING, SessionType.AFTERNOON] ∧
      (organize_sessions [mkG 36000, mkG 54000] 3).map dateKey = [0, 0] ∧
      ((organize_sessions [mkG 36000, mkG 54000] 3).getD 1 defaultSession).format_name =
        "1970-01-01-PM-2" := by
  have hraw := raw_eq_same_day_split
  unfold organize_sessions
  rw [hraw]
  refine ⟨?_, ?_, ?_, ?_⟩ <;> decide

/-- Claim C2 (amended): `_number_sessions` buckets the segmented sessions
by calendar date of start time alone — the period tag is ignored.  Within a
date bucket holding more than one session, each session's number is one
plus the count of earlier same-date sessions (so the bucket receives 1..k
in order); a session alone in its date bucket keeps number 1; the session
list is chronological (start times ascending); and the rendered name
carries a number suffix only when the number exceeds 1. -/
theorem c2_date_only_numbering (gs : List MediaGroup) (gap : ℚ) (i : Nat)
    (h : i < (organizeSessionsRaw gs gap).length) :
    ((organize_sessions gs gap).getD i defaultSession).number =
      (if 1 < ((organizeSessionsRaw gs gap).filter
            (fun t => dateKey t ==
              dateKey ((organizeSessionsRaw gs gap).get ⟨i, h⟩))).length
       then 1 + (((organizeSessionsRaw gs gap).take i).filter
            (fun t => dateKey t ==
              dateKey ((organizeSessionsRaw gs gap).get ⟨i, h⟩))).length
       else 1) ∧
      List.Pairwise (fun a b => a.start_time ≤ b.start_time)
        (organize_sessions gs gap) ∧
      ∀ s ∈ organize_sessions gs gap, ¬ 1 < s.number →
        s.format_name = dateStr s.start_time ++ "-" ++ s.type.str := by
  refine ⟨?_, ?_, ?_⟩
  · unfold organize_sessions
    rw [numberSessions_getD (organizeSessionsRaw gs gap) i h]
    by_cases hl : 1 < ((organizeSessionsRaw gs gap).filter
        (fun t => dateKey t ==
          dateKey ((organizeSessionsRaw gs gap).get ⟨i, h⟩))).length
    · rw [if_pos hl, if_pos hl]
    · rw [if_neg hl, if_neg hl]
      exact ((organizeSessionsRaw_props gs gap).1 _ (List.get_mem _ _ h)).1
  · exact forall₂_pairwise_start (numberSessions_forall₂ _)
      (organizeSessionsRaw_props gs gap).2
  · intro s _ hn
    simp only [Session.format_name]
    rw [if_neg hn]

/-- Witness for the amended C2 at a concrete same-date two-session input. -/
theorem c2_witness :
    List.Pairwise (fun a b => a.start_time ≤ b.start_time)
      (organize_sessions [mkG 36000, mkG 54000] 3) :=
  (c2_date_only_numbering [mkG 36000, mkG 54000] 3 1
    (by rw [raw_eq_same_day_split]; decide)).2.1

end Omtriage
